import Mathlib

/-!
Verification of the structural projection engine of `tehsphinx/elastic`
(`src/elastic.go`): the reflection-based field binder `Doc.fillFields` /
`Doc._fillFields` that copies a dynamic field map (as returned by the
document store) onto a statically shaped Go struct.

The embedding mirrors the Go source:
* `Ty` models the reflect types relevant to the binder: `int`, `string`,
  `float64`, struct types (as an ordered list of declared fields, each with
  a name, a `json` tag and a type) and slice types.
* `Val` models Go values of those types; mutation in place is modelled by
  threading the updated value through each function.
* `SVal` models the dynamic `interface` values found in the source field
  map `map[string]interface`.  The dynamic type of a Go slice value decides
  the type assertion `val.([]map[string]interface)` as a whole, so the
  model distinguishes a slice whose dynamic type is `[]map[string]interface`
  (`sliceMaps`) from a slice of any other dynamic element type
  (`sliceOther`, remembering only its length, which is all the binder can
  observe of it before the failing cast).
* `Failure` models the possible abnormal outcomes: the `error` values the
  Go code constructs, plus `goPanic` for the run-time panics the reflect
  package raises (`NumField` on a non-struct, `SetInt`/`SetString`/
  `SetFloat` on a field of the wrong kind, `MakeSlice` of a non-slice
  type).  A result of `(v, none)` is a normal return with final state `v`;
  `(v, some e)` means the call ended abnormally with the state mutated so
  far being `v`.
-/

namespace Eso

mutual
/-- Go types as seen by the binder via `reflect`. -/
inductive Ty : Type where
  | tint : Ty
  | tstr : Ty
  | tf64 : Ty
  | tstruct : FieldDecls → Ty
  | tslice : Ty → Ty

/-- Declared fields of a struct type, in declaration order: field name,
`json` tag (the empty string when the field carries no tag) and type. -/
inductive FieldDecls : Type where
  | nil : FieldDecls
  | cons (name tag : String) (ty : Ty) (rest : FieldDecls) : FieldDecls
end

mutual
/-- Go values of the types in `Ty`.  Float64 payloads are only ever copied
by the binder, never computed with, so they are represented by an opaque
`Int` payload. -/
inductive Val : Type where
  | vint (n : Int) : Val
  | vstr (s : String) : Val
  | vf64 (x : Int) : Val
  | vstruct (fs : FieldVals) : Val
  | vslice (es : Vals) : Val

/-- Field slots of a struct value, in declaration order. -/
inductive FieldVals : Type where
  | nil : FieldVals
  | cons (name : String) (v : Val) (rest : FieldVals) : FieldVals

/-- Elements of a slice value. -/
inductive Vals : Type where
  | nil : Vals
  | cons (v : Val) (rest : Vals) : Vals
end

mutual
/-- Dynamic (`interface`) values of the source field map. -/
inductive SVal : Type where
  | sint (n : Int) : SVal
  | sstr (s : String) : SVal
  | sf64 (x : Int) : SVal
  | sf32 (x : Int) : SVal
  | sbool (b : Bool) : SVal
  | smap (m : SEntries) : SVal
  | smapOther : SVal
  | sliceMaps (ms : SMaps) : SVal
  | sliceOther (len : Nat) : SVal

/-- The entries of a dynamic `map[string]interface` value, in the order the
Go `range` loop visits them. -/
inductive SEntries : Type where
  | nil : SEntries
  | cons (key : String) (sv : SVal) (rest : SEntries) : SEntries

/-- The elements of a dynamic `[]map[string]interface` value. -/
inductive SMaps : Type where
  | nil : SMaps
  | cons (m : SEntries) (rest : SMaps) : SMaps
end

/-- Abnormal outcomes of the binder: the `error` values built by
`Doc.fillFields` / `Doc._fillFields`, plus `goPanic` for panics raised
inside the reflect package. -/
inductive Failure : Type where
  | notAPointer : Failure
  | castMapFailed : Failure
  | castSliceFailed : Failure
  | unsupportedType : Failure
  | goPanic (msg : String) : Failure
deriving DecidableEq

/-- The spec's ShapeMismatch bucket: the two failed type-assertion errors
of `Doc._fillFields`. -/
def Failure.isShapeMismatch : Failure → Bool
  | .castMapFailed => true
  | .castSliceFailed => true
  | _ => false

/-- The fieldMap of `Doc._fillFields`: map a `json` tag to the name of the
field declaring it.  The Go loop assigns `fieldMap[tag] = field.Name` in
declaration order, so a later field with the same tag overwrites an earlier
one; tags `""` and `"-"` are skipped. -/
def tagLookup : FieldDecls → String → Option String
  | .nil, _ => none
  | .cons n tg _ rest, t =>
    match tagLookup rest t with
    | some m => some m
    | none => if tg ≠ "" ∧ tg ≠ "-" ∧ tg = t then some n else none

/-- The type of the first declared field with the given name
(`reflect.Type.FieldByName` on the target type). -/
def fieldTy : FieldDecls → String → Option Ty
  | .nil, _ => none
  | .cons n _ t rest, name => if n = name then some t else fieldTy rest name

/-- The value held by the first field slot with the given name
(`reflect.Value.FieldByName` on the target value). -/
def getField : FieldVals → String → Option Val
  | .nil, _ => none
  | .cons n v rest, name => if n = name then some v else getField rest name

/-- Overwrite the first field slot with the given name (the in-place `Set`
calls of the Go code); a value with no such slot is returned unchanged. -/
def setField : FieldVals → String → Val → FieldVals
  | .nil, _, _ => .nil
  | .cons n v rest, name, w =>
    if n = name then .cons n w rest else .cons n v (setField rest name w)

/-- The names of the field slots, in order. -/
def fieldNames : FieldVals → List String
  | .nil => []
  | .cons n _ rest => n :: fieldNames rest

mutual
/-- The Go zero value of a type (what `reflect.MakeSlice` fills fresh
elements with). -/
def zeroVal : Ty → Val
  | .tint => .vint 0
  | .tstr => .vstr ""
  | .tf64 => .vf64 0
  | .tstruct fs => .vstruct (zeroFields fs)
  | .tslice _ => .vslice .nil

/-- Zero values for every declared field. -/
def zeroFields : FieldDecls → FieldVals
  | .nil => .nil
  | .cons n _ t rest => .cons n (zeroVal t) (zeroFields rest)
end

mutual
/-- The `for key, val := range fields` loop of `Doc._fillFields`: process
the entries in order, stopping at the first abnormal outcome and keeping
the mutations made so far. -/
def fillEntries (fs : FieldDecls) (fv : FieldVals) : SEntries → FieldVals × Option Failure
  | .nil => (fv, none)
  | .cons key sv rest =>
    match fillEntry fs fv key sv with
    | (fv1, none) => fillEntries fs fv1 rest
    | (fv1, some e) => (fv1, some e)

/-- One iteration of the loop body of `Doc._fillFields`: look the key up in
the fieldMap (absent keys are skipped with `continue`), then switch on the
dynamic kind of the source value. -/
def fillEntry (fs : FieldDecls) (fv : FieldVals) (key : String) (sv : SVal) :
    FieldVals × Option Failure :=
  match tagLookup fs key with
  | none => (fv, none)
  | some name =>
    match fieldTy fs name, getField fv name with
    | some ft, some old =>
      match sv with
      | .sint n =>
        match ft with
        | .tint => (setField fv name (.vint n), none)
        | _ => (fv, some (.goPanic "reflect: call of reflect.Value.SetInt on wrong kind"))
      | .sstr s =>
        match ft with
        | .tstr => (setField fv name (.vstr s), none)
        | _ => (fv, some (.goPanic "reflect: call of reflect.Value.SetString on wrong kind"))
      | .sf64 x =>
        match ft with
        | .tf64 => (setField fv name (.vf64 x), none)
        | _ => (fv, some (.goPanic "reflect: call of reflect.Value.SetFloat on wrong kind"))
      | .sf32 x =>
        match ft with
        | .tf64 => (setField fv name (.vf64 x), none)
        | _ => (fv, some (.goPanic "reflect: call of reflect.Value.SetFloat on wrong kind"))
      | .sbool _ => (fv, some .unsupportedType)
      | .smap m1 =>
        match ft, old with
        | .tstruct gs, .vstruct gv =>
          let r := fillEntries gs gv m1
          (setField fv name (.vstruct r.1), r.2)
        | _, _ =>
          (setField fv name old, some (.goPanic "reflect: NumField of non-struct type"))
      | .smapOther => (fv, some .castMapFailed)
      | .sliceMaps ms =>
        match ft with
        | .tslice et =>
          let r := fillSliceElems et ms
          match r.2 with
          | none => (setField fv name (.vslice r.1), none)
          | some e => (fv, some e)
        | _ => (fv, some (.goPanic "reflect: MakeSlice of non-slice type"))
      | .sliceOther len =>
        match ft with
        | .tslice _ =>
          if len = 0 then (setField fv name (.vslice .nil), none)
          else (fv, some .castSliceFailed)
        | _ => (fv, some (.goPanic "reflect: MakeSlice of non-slice type"))
    | _, _ => (fv, some (.goPanic "reflect: Value.Set using unaddressable field"))

/-- The slice branch of `Doc._fillFields`: fill each fresh zero element of
the `reflect.MakeSlice` container from the mapping at the same index.  On
the first abnormal element the loop returns at once and the fresh
container is discarded without being assigned into the field. -/
def fillSliceElems (et : Ty) : SMaps → Vals × Option Failure
  | .nil => (.nil, none)
  | .cons m rest =>
    match et with
    | .tstruct gs =>
      let r1 := fillEntries gs (zeroFields gs) m
      match r1.2 with
      | none =>
        let r := fillSliceElems et rest
        (.cons (.vstruct r1.1) r.1, r.2)
      | some e => (.nil, some e)
    | _ => (.nil, some (.goPanic "reflect: NumField of non-struct type"))
end

/-- `Doc._fillFields(v, fields)`.  The pointer-dereference loop at its top
is a no-op here because the model's struct fields are not pointers; a
target whose (dereferenced) type is not a struct makes `vt.NumField()`
panic.  The recursive invocations inside `fillEntry` (nested mapping) and
`fillSliceElems` (slice element) are this same dispatch, inlined. -/
def fillValue (t : Ty) (v : Val) (m : SEntries) : Val × Option Failure :=
  match t, v with
  | .tstruct fs, .vstruct fv =>
    let r := fillEntries fs fv m
    (.vstruct r.1, r.2)
  | _, _ => (v, some (.goPanic "reflect: NumField of non-struct type"))

/-- The argument of `Doc.fillFields`: a Go `interface` value that either is
a (non-nil) pointer to a value of type `t`, or has some non-pointer kind. -/
inductive Target : Type where
  | ptr (t : Ty) (v : Val) : Target
  | nonPtr (t : Ty) (v : Val) : Target

/-- `Doc.fillFields(res, fields)`: reject a non-pointer target with the
error `res is not a pointer`, otherwise run `Doc._fillFields` on the
pointed-to value. -/
def fillFields : Target → SEntries → Target × Option Failure
  | .nonPtr t v, _ => (.nonPtr t v, some .notAPointer)
  | .ptr t v, m =>
    let r := fillValue t v m
    (.ptr t r.1, r.2)

/-- Whether a type is a structural (struct) type. -/
def Ty.isStructTy : Ty → Bool
  | .tstruct _ => true
  | _ => false

mutual
/-- A value inhabits a type (what holding a `reflect.Value` of that type
guarantees in Go). -/
def wtVal : Ty → Val → Bool
  | .tint, .vint _ => true
  | .tstr, .vstr _ => true
  | .tf64, .vf64 _ => true
  | .tstruct fs, .vstruct fv => wtFields fs fv
  | .tslice et, .vslice es => wtVals et es
  | _, _ => false

/-- The slots of a struct value carry the declared names in declaration
order and values of the declared types. -/
def wtFields : FieldDecls → FieldVals → Bool
  | .nil, .nil => true
  | .cons n _ t fr, .cons n2 v vr => n == n2 && wtVal t v && wtFields fr vr
  | _, _ => false

/-- Every element of a slice value inhabits the element type. -/
def wtVals : Ty → Vals → Bool
  | _, .nil => true
  | et, .cons v rest => wtVal et v && wtVals et rest
end

mutual
/-- A source value is bindable against a field of the given type: exactly
the shapes `Doc._fillFields` handles without returning an error or
panicking. -/
def compat : Ty → SVal → Bool
  | .tint, .sint _ => true
  | .tstr, .sstr _ => true
  | .tf64, .sf64 _ => true
  | .tf64, .sf32 _ => true
  | .tstruct fs, .smap m => compatEntries fs m
  | .tslice et, .sliceMaps ms => compatMaps et ms
  | .tslice _, .sliceOther l => l == 0
  | _, _ => false

/-- Every entry of a field map is either an unmatched tag (skipped) or
bindable against its located field. -/
def compatEntries : FieldDecls → SEntries → Bool
  | _, .nil => true
  | fs, .cons key sv rest =>
    (match tagLookup fs key with
     | none => true
     | some name =>
       match fieldTy fs name with
       | some ft => compat ft sv
       | none => false) && compatEntries fs rest

/-- Every element mapping of a sequence is bindable against a fresh zero
element of the (structural) element type. -/
def compatMaps : Ty → SMaps → Bool
  | _, .nil => true
  | et, .cons m rest =>
    (match et with
     | .tstruct gs => compatEntries gs m
     | _ => false) && compatMaps et rest
end

/-- First entry of a source field map with the given key. -/
def keyLookup : SEntries → String → Option SVal
  | .nil, _ => none
  | .cons k sv rest, key => if k = key then some sv else keyLookup rest key

/-- A key occurs in the source field map. -/
def keyMem (m : SEntries) (key : String) : Bool :=
  (keyLookup m key).isSome

/-- The keys of the source field map are pairwise distinct (always true of
a Go map). -/
def sKeysNodup : SEntries → Bool
  | .nil => true
  | .cons k _ rest => !keyMem rest k && sKeysNodup rest

/-- Every key of the source field map is a tag declared on the target. -/
def allKeysDeclared (fs : FieldDecls) : SEntries → Bool
  | .nil => true
  | .cons k _ rest => (tagLookup fs k).isSome && allKeysDeclared fs rest

/-- A field with the given name is declared. -/
def nameMem (fs : FieldDecls) (n : String) : Bool :=
  (fieldTy fs n).isSome

/-- Declared field names are pairwise distinct (always true of a Go
struct). -/
def declNamesNodup : FieldDecls → Bool
  | .nil => true
  | .cons n _ _ rest => !nameMem rest n && declNamesNodup rest

/-- A tag occurs among the declared fields. -/
def tagMem : FieldDecls → String → Bool
  | .nil, _ => false
  | .cons _ tg _ rest, t => tg == t || tagMem rest t

/-- Some key of the field map resolves (through the fieldMap of
`Doc._fillFields`) to the given target field name. -/
def targetsName (fs : FieldDecls) : SEntries → String → Bool
  | .nil, _ => false
  | .cons k _ rest, nm => tagLookup fs k == some nm || targetsName fs rest nm

/-- Element type of a slice type (identity elsewhere). -/
def elemTyOf : Ty → Ty
  | .tslice e => e
  | t => t

/-- The value one loop iteration of `Doc._fillFields` writes into its
located field when it completes without error: scalars are copied as-is, a
nested mapping leaves the recursively re-bound old value, a sequence of
mappings leaves the freshly built container, an empty sequence of any
dynamic type leaves a fresh empty container. -/
def newVal (ft : Ty) (old : Val) : SVal → Val
  | .sint n => .vint n
  | .sstr s => .vstr s
  | .sf64 x => .vf64 x
  | .sf32 x => .vf64 x
  | .smap m1 => (fillValue ft old m1).1
  | .sliceMaps ms => .vslice (fillSliceElems (elemTyOf ft) ms).1
  | .sliceOther _ => .vslice .nil
  | .sbool _ => old
  | .smapOther => old

mutual
/-- Modelled from the spec: the excluded Document Store serialization path
(spec section 8, round-trip), which produces a field map from a structural
value field-by-field under its tags; integer, string and float fields
become the corresponding scalars, nested structural fields become nested
mappings, and sequence-of-structural fields become sequences of mappings.
Untagged fields and sentinel tags are excluded from binding (spec section
3), and shapes outside the round-trip type universe are not serialized
(arbitrary fallback, unreachable under `goodTy`). -/
def serializeVal : Ty → Val → SVal
  | .tint, .vint n => .sint n
  | .tstr, .vstr s => .sstr s
  | .tf64, .vf64 x => .sf64 x
  | .tstruct fs, .vstruct fv => .smap (serializeFields fs fv)
  | .tslice (.tstruct gs), .vslice es => .sliceMaps (serializeElems gs es)
  | _, _ => .sbool false

/-- Modelled from the spec: serialize each tagged field under its tag, in
declaration order. -/
def serializeFields : FieldDecls → FieldVals → SEntries
  | .cons _ tg t fr, .cons _ v vr =>
    if tg ≠ "" ∧ tg ≠ "-" then .cons tg (serializeVal t v) (serializeFields fr vr)
    else serializeFields fr vr
  | _, _ => .nil

/-- Modelled from the spec: serialize each structural element of a
sequence as a mapping. -/
def serializeElems : FieldDecls → Vals → SMaps
  | _, .nil => .nil
  | gs, .cons (.vstruct gv) rest => .cons (serializeFields gs gv) (serializeElems gs rest)
  | gs, .cons _ rest => .cons .nil (serializeElems gs rest)
end

mutual
/-- The type universe of the round-trip claim: types built only from
integer, string, float, nested-structural and sequence-of-structural
fields, where (spec section 3) every field carries a non-sentinel tag that
is unique within its structural level and field names are unique. -/
def goodTy : Ty → Bool
  | .tint => true
  | .tstr => true
  | .tf64 => true
  | .tstruct fs => goodDecls fs
  | .tslice (.tstruct gs) => goodDecls gs
  | .tslice _ => false

/-- Declared fields of a round-trip type: non-sentinel pairwise distinct
tags, distinct names, recursively good field types. -/
def goodDecls : FieldDecls → Bool
  | .nil => true
  | .cons n tg t rest =>
    tg != "" && tg != "-" && !tagMem rest tg && !nameMem rest n && goodTy t && goodDecls rest
end

/-- Concatenation of source field maps. -/
def SEntries.append : SEntries → SEntries → SEntries
  | .nil, m2 => m2
  | .cons k sv rest, m2 => .cons k sv (rest.append m2)

/-- Number of elements of a slice value. -/
def valsLen : Vals → Nat
  | .nil => 0
  | .cons _ rest => valsLen rest + 1

/-- Number of element mappings of a dynamic sequence of mappings. -/
def smapsLen : SMaps → Nat
  | .nil => 0
  | .cons _ rest => smapsLen rest + 1

/-- Element of a slice value at an index. -/
def valsGet : Vals → Nat → Option Val
  | .nil, _ => none
  | .cons v _, 0 => some v
  | .cons _ rest, i + 1 => valsGet rest i

/-- Element mapping of a dynamic sequence of mappings at an index. -/
def smapsGet : SMaps → Nat → Option SEntries
  | .nil, _ => none
  | .cons m _, 0 => some m
  | .cons _ rest, i + 1 => smapsGet rest i

/-- Bindability of one entry of a field map (wrapper around the inlined
match inside `compatEntries`). -/
def entryCompat (fs : FieldDecls) (key : String) (sv : SVal) : Bool :=
  match tagLookup fs key with
  | none => true
  | some name =>
    match fieldTy fs name with
    | some ft => compat ft sv
    | none => false

/-- Every field of the second list resolves, inside the full declaration
list `fs`, to its own name and type: its tag maps to its name through the
fieldMap and its name locates its type. -/
def resolvesIn (fs : FieldDecls) : FieldDecls → Prop
  | .nil => True
  | .cons n tg t rest => tagLookup fs tg = some n ∧ fieldTy fs n = some t ∧ resolvesIn fs rest

/-- Write a list of named values into a struct value, left to right. -/
def writeList : FieldVals → List (String × Val) → FieldVals
  | st, [] => st
  | st, (n, v) :: ps => writeList (setField st n v) ps

/-- The (name, value) pairs of a struct value, paired in declaration
order. -/
def declPairs : FieldDecls → FieldVals → List (String × Val)
  | .cons n _ _ fr, .cons _ v vr => (n, v) :: declPairs fr vr
  | _, _ => []

/-- Some declared field has the given name and the given tag. -/
def declHasTag : FieldDecls → String → String → Bool
  | .nil, _, _ => false
  | .cons n2 tg _ rest, n, k => (n2 == n && tg == k) || declHasTag rest n k

/-- Example declarations for concrete witnesses: innermost struct with one
tagged string field. -/
def exInner : FieldDecls := .cons "S" "s" .tstr .nil

/-- Middle-level struct: a nested structural field and an integer field. -/
def exMid : FieldDecls := .cons "M" "m" (.tstruct exInner) (.cons "X" "x" .tint .nil)

/-- Top-level struct: an integer, a nested structural field reaching three
structural levels, and a sequence-of-structural field. -/
def exTop : FieldDecls :=
  .cons "A" "a" .tint
    (.cons "N" "n" (.tstruct exMid)
      (.cons "L" "l" (.tslice (.tstruct exInner)) .nil))

/-- A fully populated value of `exTop`. -/
def exTopVal : FieldVals :=
  .cons "A" (.vint 42)
    (.cons "N" (.vstruct (.cons "M" (.vstruct (.cons "S" (.vstr "deep") .nil))
        (.cons "X" (.vint 7) .nil)))
      (.cons "L" (.vslice (.cons (.vstruct (.cons "S" (.vstr "e1") .nil))
          (.cons (.vstruct (.cons "S" (.vstr "e2") .nil)) .nil))) .nil))

/-- Two-field target used by several witnesses. -/
def exAB : FieldDecls := .cons "A" "a" .tint (.cons "B" "b" .tstr .nil)

/-- A value of `exAB` with both fields populated. -/
def exABVal : FieldVals := .cons "A" (.vint 1) (.cons "B" (.vstr "x") .nil)

/-- Target with one integer field tagged `a`. -/
def exA : FieldDecls := .cons "A" "a" .tint .nil

/-- A value of `exA` holding 7. -/
def exAVal : FieldVals := .cons "A" (.vint 7) .nil

/-- Target with one sequence-of-structural field tagged `items`. -/
def exItems : FieldDecls := .cons "Items" "items" (.tslice (.tstruct exInner)) .nil

/-- A value of `exItems` holding a pre-existing one-element container. -/
def exItemsVal : FieldVals :=
  .cons "Items" (.vslice (.cons (.vstruct (.cons "S" (.vstr "old") .nil)) .nil)) .nil

example :
    fillFields
      (.ptr (.tstruct (.cons "A" "a" .tint (.cons "B" "b" .tstr .nil)))
        (.vstruct (.cons "A" (.vint 1) (.cons "B" (.vstr "x") .nil))))
      (.cons "a" (.sint 5) .nil) =
    (.ptr (.tstruct (.cons "A" "a" .tint (.cons "B" "b" .tstr .nil)))
        (.vstruct (.cons "A" (.vint 5) (.cons "B" (.vstr "x") .nil))),
      none) := rfl

example :
    fillFields (.ptr .tint (.vint 3)) .nil =
    (.ptr .tint (.vint 3), some (.goPanic "reflect: NumField of non-struct type")) := rfl

example :
    fillFields
      (.ptr (.tstruct (.cons "A" "a" .tint .nil)) (.vstruct (.cons "A" (.vint 7) .nil)))
      (.cons "a" (.sstr "text") .nil) =
    (.ptr (.tstruct (.cons "A" "a" .tint .nil)) (.vstruct (.cons "A" (.vint 7) .nil)),
      some (.goPanic "reflect: call of reflect.Value.SetString on wrong kind")) := rfl

theorem setField_names : (fv : FieldVals) → ∀ name w,
    fieldNames (setField fv name w) = fieldNames fv
  | .nil, _, _ => rfl
  | .cons n v rest, name, w => by
    simp only [setField]
    split
    · rfl
    · simp [fieldNames, setField_names rest name w]

theorem setField_cons_ne (n name : String) (v w : Val) (rest : FieldVals) (h : n ≠ name) :
    setField (.cons n v rest) name w = .cons n v (setField rest name w) := by
  simp [setField, h]

theorem getField_setField_ne : (fv : FieldVals) → ∀ name n2 w, n2 ≠ name →
    getField (setField fv name w) n2 = getField fv n2
  | .nil, _, _, _, _ => rfl
  | .cons n v rest, name, n2, w, h => by
    simp only [setField]
    split
    · next heq =>
      subst heq
      simp only [getField]
      rw [if_neg (fun hh => h hh.symm), if_neg (fun hh => h hh.symm)]
    · simp only [getField]
      split
      · rfl
      · exact getField_setField_ne rest name n2 w h

theorem getField_setField_eq : (fv : FieldVals) → ∀ name w, (getField fv name).isSome = true →
    getField (setField fv name w) name = some w
  | .nil, name, _, h => by simp [getField] at h
  | .cons n v rest, name, w, h => by
    simp only [setField]
    split
    · next heq => simp [getField, heq]
    · next hne =>
      simp only [getField] at h ⊢
      rw [if_neg hne] at h ⊢
      exact getField_setField_eq rest name w h

theorem wt_getField : (fs : FieldDecls) → ∀ fv name ft,
    wtFields fs fv = true → fieldTy fs name = some ft →
    ∃ old, getField fv name = some old ∧ wtVal ft old = true
  | .nil, _, name, ft, _, hty => by simp [fieldTy] at hty
  | .cons n tg t rest, fv, name, ft, hwt, hty => by
    cases fv with
    | nil => simp [wtFields] at hwt
    | cons n2 v vr =>
      simp only [wtFields, Bool.and_eq_true, beq_iff_eq] at hwt
      obtain ⟨⟨hn, hv⟩, hr⟩ := hwt
      subst hn
      simp only [fieldTy] at hty
      by_cases hname : n = name
      · rw [if_pos hname] at hty
        cases hty
        exact ⟨v, by simp [getField, hname], hv⟩
      · rw [if_neg hname] at hty
        obtain ⟨old, hget, hwt2⟩ := wt_getField rest vr name ft hr hty
        exact ⟨old, by simp [getField, hname, hget], hwt2⟩

theorem wt_setField : (fs : FieldDecls) → ∀ fv name ft w,
    wtFields fs fv = true → fieldTy fs name = some ft → wtVal ft w = true →
    wtFields fs (setField fv name w) = true
  | .nil, _, name, ft, _, _, hty, _ => by simp [fieldTy] at hty
  | .cons n tg t rest, fv, name, ft, w, hwt, hty, hw => by
    cases fv with
    | nil => simp [wtFields] at hwt
    | cons n2 v vr =>
      simp only [wtFields, Bool.and_eq_true, beq_iff_eq] at hwt
      obtain ⟨⟨hn, hv⟩, hr⟩ := hwt
      subst hn
      simp only [fieldTy] at hty
      by_cases hname : n = name
      · rw [if_pos hname] at hty
        cases hty
        simp [setField, hname, wtFields, hw, hr]
      · rw [if_neg hname] at hty
        rw [setField_cons_ne n name v w vr hname]
        simp [wtFields, hv, wt_setField rest vr name ft w hr hty hw]

theorem tagLookup_isSome_fieldTy : (fs : FieldDecls) → ∀ key name,
    tagLookup fs key = some name → (fieldTy fs name).isSome = true
  | .nil, key, name, h => by simp [tagLookup] at h
  | .cons n tg t rest, key, name, h => by
    cases hr : tagLookup rest key with
    | some m =>
      simp only [tagLookup, hr] at h
      cases h
      by_cases hname : n = name
      · simp [fieldTy, hname]
      · simp [fieldTy, hname, tagLookup_isSome_fieldTy rest key name hr]
    | none =>
      simp only [tagLookup, hr] at h
      split at h
      · cases h
        simp [fieldTy]
      · cases h

theorem tagLookup_declHasTag : (fs : FieldDecls) → ∀ key name,
    tagLookup fs key = some name → declHasTag fs name key = true
  | .nil, key, name, h => by simp [tagLookup] at h
  | .cons n tg t rest, key, name, h => by
    cases hr : tagLookup rest key with
    | some m =>
      simp only [tagLookup, hr] at h
      cases h
      simp [declHasTag, tagLookup_declHasTag rest key name hr]
    | none =>
      simp only [tagLookup, hr] at h
      split at h
      · next hcond =>
        cases h
        simp [declHasTag, hcond.2.2]
      · cases h

theorem declHasTag_nameMem : (fs : FieldDecls) → ∀ n k,
    declHasTag fs n k = true → nameMem fs n = true
  | .nil, n, k, h => by simp [declHasTag] at h
  | .cons n2 tg t rest, n, k, h => by
    simp only [declHasTag, Bool.or_eq_true, Bool.and_eq_true, beq_iff_eq] at h
    rcases h with ⟨hn, _⟩ | h
    · simp [nameMem, fieldTy, hn]
    · have := declHasTag_nameMem rest n k h
      simp only [nameMem, fieldTy]
      by_cases hname : n2 = n
      · simp [hname]
      · simpa [hname] using this

theorem declNamesNodup_tag_inj : (fs : FieldDecls) → ∀ n k1 k2,
    declNamesNodup fs = true →
    declHasTag fs n k1 = true → declHasTag fs n k2 = true → k1 = k2
  | .nil, n, k1, k2, _, h1, _ => by simp [declHasTag] at h1
  | .cons n2 tg t rest, n, k1, k2, hnd, h1, h2 => by
    simp only [declNamesNodup, Bool.and_eq_true, Bool.not_eq_true'] at hnd
    obtain ⟨hmem, hnd⟩ := hnd
    simp only [declHasTag, Bool.or_eq_true, Bool.and_eq_true, beq_iff_eq] at h1 h2
    rcases h1 with ⟨hn1, ht1⟩ | h1
    · rcases h2 with ⟨hn2, ht2⟩ | h2
      · rw [← ht1, ← ht2]
      · exfalso
        rw [hn1] at hmem
        rw [declHasTag_nameMem rest n k2 h2] at hmem
        cases hmem
    · rcases h2 with ⟨hn2, ht2⟩ | h2
      · exfalso
        rw [hn2] at hmem
        rw [declHasTag_nameMem rest n k1 h1] at hmem
        cases hmem
      · exact declNamesNodup_tag_inj rest n k1 k2 hnd h1 h2

theorem tagLookup_inj (fs : FieldDecls) (k1 k2 name : String)
    (hnd : declNamesNodup fs = true)
    (h1 : tagLookup fs k1 = some name) (h2 : tagLookup fs k2 = some name) : k1 = k2 :=
  declNamesNodup_tag_inj fs name k1 k2 hnd
    (tagLookup_declHasTag fs k1 name h1) (tagLookup_declHasTag fs k2 name h2)

mutual
theorem zeroVal_wt : (t : Ty) → wtVal t (zeroVal t) = true
  | .tint => rfl
  | .tstr => rfl
  | .tf64 => rfl
  | .tstruct fs => zeroFields_wt fs
  | .tslice _ => rfl

theorem zeroFields_wt : (fs : FieldDecls) → wtFields fs (zeroFields fs) = true
  | .nil => rfl
  | .cons n tg t rest => by
    simp [zeroFields, wtFields, zeroVal_wt t, zeroFields_wt rest]
end

theorem fillEntry_shape (fs : FieldDecls) (fv : FieldVals) (key : String) (sv : SVal) :
    (fillEntry fs fv key sv).1 = fv ∨
    ∃ name w, tagLookup fs key = some name ∧ (fillEntry fs fv key sv).1 = setField fv name w := by
  cases htl : tagLookup fs key with
  | none => left; simp [fillEntry, htl]
  | some name =>
    rcases hft : fieldTy fs name with _ | ft
    · left; simp [fillEntry, htl, hft]
    · rcases hgf : getField fv name with _ | old
      · left; simp [fillEntry, htl, hft, hgf]
      · cases sv <;> cases ft <;> (try cases old) <;>
          simp only [fillEntry, htl, hft, hgf] <;> (try split) <;>
          first
            | (left; trivial)
            | (right; exact ⟨name, _, rfl, rfl⟩)

theorem fillEntry_skip (fs : FieldDecls) (fv : FieldVals) (key : String) (sv : SVal)
    (htl : tagLookup fs key = none) : fillEntry fs fv key sv = (fv, none) := by
  simp [fillEntry, htl]

theorem fillEntry_untouched (fs : FieldDecls) (fv : FieldVals) (key : String) (sv : SVal)
    (nm : String) (h : ∀ n2, tagLookup fs key = some n2 → n2 ≠ nm) :
    getField (fillEntry fs fv key sv).1 nm = getField fv nm := by
  rcases fillEntry_shape fs fv key sv with hs | ⟨n2, w, htl, hs⟩
  · rw [hs]
  · rw [hs]
    exact getField_setField_ne fv n2 nm w (Ne.symm (h n2 htl))

theorem fillEntries_names : (m : SEntries) → ∀ fs fv,
    fieldNames (fillEntries fs fv m).1 = fieldNames fv
  | .nil, _, _ => rfl
  | .cons key sv rest, fs, fv => by
    have h1 : fieldNames (fillEntry fs fv key sv).1 = fieldNames fv := by
      rcases fillEntry_shape fs fv key sv with hs | ⟨n2, w, _, hs⟩
      · rw [hs]
      · rw [hs]; exact setField_names fv n2 w
    rcases hfe : fillEntry fs fv key sv with ⟨fv1, e⟩
    rw [hfe] at h1
    cases e with
    | none =>
      simp only [fillEntries, hfe]
      rw [fillEntries_names rest fs fv1]
      exact h1
    | some e0 =>
      simp only [fillEntries, hfe]
      exact h1

theorem fillEntries_frame : (m : SEntries) → ∀ fs fv nm,
    targetsName fs m nm = false →
    getField (fillEntries fs fv m).1 nm = getField fv nm
  | .nil, _, _, _, _ => rfl
  | .cons key sv rest, fs, fv, nm, h => by
    simp only [targetsName, Bool.or_eq_false_iff] at h
    obtain ⟨h1, h2⟩ := h
    have hne : ∀ n2, tagLookup fs key = some n2 → n2 ≠ nm := by
      intro n2 htl heq
      rw [htl, heq] at h1
      simp at h1
    have hu := fillEntry_untouched fs fv key sv nm hne
    rcases hfe : fillEntry fs fv key sv with ⟨fv1, e⟩
    rw [hfe] at hu
    cases e with
    | none =>
      simp only [fillEntries, hfe]
      rw [fillEntries_frame rest fs fv1 nm h2]
      exact hu
    | some e0 =>
      simp only [fillEntries, hfe]
      exact hu

theorem entryCompat_some (fs : FieldDecls) (key : String) (sv : SVal) (name : String)
    (htl : tagLookup fs key = some name) (hc : entryCompat fs key sv = true) :
    ∃ ft, fieldTy fs name = some ft ∧ compat ft sv = true := by
  simp only [entryCompat, htl] at hc
  cases hft : fieldTy fs name with
  | none => rw [hft] at hc; cases hc
  | some ft =>
    rw [hft] at hc
    exact ⟨ft, rfl, hc⟩

mutual
theorem fillEntries_ok : (m : SEntries) → ∀ fs fv,
    wtFields fs fv = true → compatEntries fs m = true →
    (fillEntries fs fv m).2 = none ∧ wtFields fs (fillEntries fs fv m).1 = true
  | .nil, _, _, hwt, _ => ⟨rfl, hwt⟩
  | .cons key sv rest, fs, fv, hwt, hc => by
    simp only [compatEntries, Bool.and_eq_true] at hc
    obtain ⟨hc1, hc2⟩ := hc
    obtain ⟨he, hw1⟩ := fillEntry_ok sv fs fv key hwt hc1
    rcases hfe : fillEntry fs fv key sv with ⟨fv1, e⟩
    rw [hfe] at he hw1
    simp only at he
    subst he
    simp only [fillEntries, hfe]
    exact fillEntries_ok rest fs fv1 hw1 hc2

theorem fillEntry_ok : (sv : SVal) → ∀ fs fv key,
    wtFields fs fv = true → entryCompat fs key sv = true →
    (fillEntry fs fv key sv).2 = none ∧ wtFields fs (fillEntry fs fv key sv).1 = true
  | .sint n, fs, fv, key, hwt, hc => by
    cases htl : tagLookup fs key with
    | none => rw [fillEntry_skip fs fv key _ htl]; exact ⟨rfl, hwt⟩
    | some name =>
      obtain ⟨ft, hft, hcc⟩ := entryCompat_some fs key _ name htl hc
      obtain ⟨old, hgf, hwto⟩ := wt_getField fs fv name ft hwt hft
      cases ft <;> simp [compat] at hcc
      simp only [fillEntry, htl, hft, hgf]
      exact ⟨by trivial, wt_setField fs fv name .tint (.vint n) hwt hft rfl⟩
  | .sstr s, fs, fv, key, hwt, hc => by
    cases htl : tagLookup fs key with
    | none => rw [fillEntry_skip fs fv key _ htl]; exact ⟨rfl, hwt⟩
    | some name =>
      obtain ⟨ft, hft, hcc⟩ := entryCompat_some fs key _ name htl hc
      obtain ⟨old, hgf, hwto⟩ := wt_getField fs fv name ft hwt hft
      cases ft <;> simp [compat] at hcc
      simp only [fillEntry, htl, hft, hgf]
      exact ⟨by trivial, wt_setField fs fv name .tstr (.vstr s) hwt hft rfl⟩
  | .sf64 x, fs, fv, key, hwt, hc => by
    cases htl : tagLookup fs key with
    | none => rw [fillEntry_skip fs fv key _ htl]; exact ⟨rfl, hwt⟩
    | some name =>
      obtain ⟨ft, hft, hcc⟩ := entryCompat_some fs key _ name htl hc
      obtain ⟨old, hgf, hwto⟩ := wt_getField fs fv name ft hwt hft
      cases ft <;> simp [compat] at hcc
      simp only [fillEntry, htl, hft, hgf]
      exact ⟨by trivial, wt_setField fs fv name .tf64 (.vf64 x) hwt hft rfl⟩
  | .sf32 x, fs, fv, key, hwt, hc => by
    cases htl : tagLookup fs key with
    | none => rw [fillEntry_skip fs fv key _ htl]; exact ⟨rfl, hwt⟩
    | some name =>
      obtain ⟨ft, hft, hcc⟩ := entryCompat_some fs key _ name htl hc
      obtain ⟨old, hgf, hwto⟩ := wt_getField fs fv name ft hwt hft
      cases ft <;> simp [compat] at hcc
      simp only [fillEntry, htl, hft, hgf]
      exact ⟨by trivial, wt_setField fs fv name .tf64 (.vf64 x) hwt hft rfl⟩
  | .sbool b, fs, fv, key, hwt, hc => by
    cases htl : tagLookup fs key with
    | none => rw [fillEntry_skip fs fv key _ htl]; exact ⟨rfl, hwt⟩
    | some name =>
      obtain ⟨ft, hft, hcc⟩ := entryCompat_some fs key _ name htl hc
      cases ft <;> simp [compat] at hcc
  | .smapOther, fs, fv, key, hwt, hc => by
    cases htl : tagLookup fs key with
    | none => rw [fillEntry_skip fs fv key _ htl]; exact ⟨rfl, hwt⟩
    | some name =>
      obtain ⟨ft, hft, hcc⟩ := entryCompat_some fs key _ name htl hc
      cases ft <;> simp [compat] at hcc
  | .smap m1, fs, fv, key, hwt, hc => by
    cases htl : tagLookup fs key with
    | none => rw [fillEntry_skip fs fv key _ htl]; exact ⟨rfl, hwt⟩
    | some name =>
      obtain ⟨ft, hft, hcc⟩ := entryCompat_some fs key _ name htl hc
      obtain ⟨old, hgf, hwto⟩ := wt_getField fs fv name ft hwt hft
      cases ft <;> simp only [compat] at hcc
      case tint => cases hcc
      case tstr => cases hcc
      case tf64 => cases hcc
      case tslice et => cases hcc
      case tstruct gs =>
        cases old <;> simp [wtVal] at hwto
        case vstruct gv =>
          obtain ⟨hr2, hrwt⟩ := fillEntries_ok m1 gs gv hwto hcc
          simp only [fillEntry, htl, hft, hgf]
          exact ⟨hr2, wt_setField fs fv name (.tstruct gs)
            (.vstruct (fillEntries gs gv m1).1) hwt hft hrwt⟩
  | .sliceMaps ms, fs, fv, key, hwt, hc => by
    cases htl : tagLookup fs key with
    | none => rw [fillEntry_skip fs fv key _ htl]; exact ⟨rfl, hwt⟩
    | some name =>
      obtain ⟨ft, hft, hcc⟩ := entryCompat_some fs key _ name htl hc
      obtain ⟨old, hgf, hwto⟩ := wt_getField fs fv name ft hwt hft
      cases ft <;> simp only [compat] at hcc
      case tint => cases hcc
      case tstr => cases hcc
      case tf64 => cases hcc
      case tstruct gs => cases hcc
      case tslice et =>
        obtain ⟨hr2, hrwt⟩ := fillSliceElems_ok ms et hcc
        simp only [fillEntry, htl, hft, hgf, hr2]
        exact ⟨by trivial, wt_setField fs fv name (.tslice et)
          (.vslice (fillSliceElems et ms).1) hwt hft hrwt⟩
  | .sliceOther l, fs, fv, key, hwt, hc => by
    cases htl : tagLookup fs key with
    | none => rw [fillEntry_skip fs fv key _ htl]; exact ⟨rfl, hwt⟩
    | some name =>
      obtain ⟨ft, hft, hcc⟩ := entryCompat_some fs key _ name htl hc
      obtain ⟨old, hgf, hwto⟩ := wt_getField fs fv name ft hwt hft
      cases ft <;> simp only [compat] at hcc
      case tint => cases hcc
      case tstr => cases hcc
      case tf64 => cases hcc
      case tstruct gs => cases hcc
      case tslice et =>
        have hl : l = 0 := by simpa using hcc
        subst hl
        have heq : fillEntry fs fv key (.sliceOther 0) = (setField fv name (.vslice .nil), none) := by
          simp [fillEntry, htl, hft, hgf]
        rw [heq]
        exact ⟨rfl, wt_setField fs fv name (.tslice et) (.vslice .nil) hwt hft rfl⟩

theorem fillSliceElems_ok : (ms : SMaps) → ∀ et,
    compatMaps et ms = true →
    (fillSliceElems et ms).2 = none ∧ wtVals et (fillSliceElems et ms).1 = true
  | .nil, _, _ => ⟨rfl, rfl⟩
  | .cons m rest, et, hc => by
    simp only [compatMaps, Bool.and_eq_true] at hc
    obtain ⟨hc1, hc2⟩ := hc
    cases et <;> simp only at hc1
    case tint => cases hc1
    case tstr => cases hc1
    case tf64 => cases hc1
    case tslice et2 => cases hc1
    case tstruct gs =>
      obtain ⟨h12, h1w⟩ := fillEntries_ok m gs (zeroFields gs) (zeroFields_wt gs) hc1
      obtain ⟨hr2, hrwt⟩ := fillSliceElems_ok rest (.tstruct gs) hc2
      simp only [fillSliceElems, h12]
      constructor
      · exact hr2
      · simp only [wtVals, Bool.and_eq_true]
        exact ⟨h1w, hrwt⟩
end

theorem good_namesNodup : (fs : FieldDecls) → goodDecls fs = true → declNamesNodup fs = true
  | .nil, _ => rfl
  | .cons n tg t rest, h => by
    simp only [goodDecls, Bool.and_eq_true, bne_iff_ne, ne_eq, Bool.not_eq_true'] at h
    obtain ⟨⟨⟨⟨⟨h1, h2⟩, h3⟩, h4⟩, h5⟩, h6⟩ := h
    simp only [declNamesNodup, Bool.and_eq_true, Bool.not_eq_true']
    exact ⟨h4, good_namesNodup rest h6⟩

theorem tagLookup_none_of_not_tagMem : (fs : FieldDecls) → ∀ tg,
    tagMem fs tg = false → tagLookup fs tg = none
  | .nil, _, _ => rfl
  | .cons n tg2 t rest, tg, h => by
    simp only [tagMem, Bool.or_eq_false_iff] at h
    obtain ⟨h1, h2⟩ := h
    have hr := tagLookup_none_of_not_tagMem rest tg h2
    simp only [tagLookup, hr]
    rw [if_neg]
    intro hcond
    rw [hcond.2.2] at h1
    simp at h1

theorem resolvesIn_cons : (fr : FieldDecls) → ∀ fs n tg t,
    resolvesIn fs fr → nameMem fs n = false →
    resolvesIn (.cons n tg t fs) fr
  | .nil, _, _, _, _, _, _ => trivial
  | .cons n1 tg1 t1 fr2, fs, n, tg, t, h, hn => by
    obtain ⟨h1, h2, h3⟩ := h
    refine ⟨?_, ?_, resolvesIn_cons fr2 fs n tg t h3 hn⟩
    · simp only [tagLookup, h1]
    · have hne : n ≠ n1 := by
        intro he
        rw [he] at hn
        unfold nameMem at hn
        rw [h2] at hn
        simp at hn
      simp only [fieldTy, if_neg hne, h2]

theorem good_resolves : (fs : FieldDecls) → goodDecls fs = true → resolvesIn fs fs
  | .nil, _ => trivial
  | .cons n tg t rest, h => by
    simp only [goodDecls, Bool.and_eq_true, bne_iff_ne, ne_eq, Bool.not_eq_true'] at h
    obtain ⟨⟨⟨⟨⟨h1, h2⟩, h3⟩, h4⟩, h5⟩, h6⟩ := h
    refine ⟨?_, ?_, ?_⟩
    · have hr := tagLookup_none_of_not_tagMem rest tg h3
      simp only [tagLookup, hr]
      rw [if_pos ⟨h1, h2, by trivial⟩]
    · simp [fieldTy]
    · exact resolvesIn_cons rest rest n tg t (good_resolves rest h6) h4

theorem declPairs_name : (fs : FieldDecls) → ∀ fv n v,
    wtFields fs fv = true → (n, v) ∈ declPairs fs fv → nameMem fs n = true
  | .nil, fv, n, v, _, hmem => by
    cases fv <;> simp [declPairs] at hmem
  | .cons n2 tg t fr, fv, n, v, hwt, hmem => by
    cases fv with
    | nil => simp [wtFields] at hwt
    | cons n3 w vr =>
      simp only [wtFields, Bool.and_eq_true, beq_iff_eq] at hwt
      obtain ⟨⟨hn3, hw⟩, hr⟩ := hwt
      simp only [declPairs, List.mem_cons, Prod.mk.injEq] at hmem
      rcases hmem with ⟨he1, he2⟩ | hmem
      · simp [nameMem, fieldTy, he1.symm]
      · have := declPairs_name fr vr n v hr hmem
        simp only [nameMem, fieldTy]
        by_cases hname : n2 = n
        · simp [hname]
        · simpa [hname] using this

theorem writeList_cons_ne : (ps : List (String × Val)) → ∀ n v st,
    (∀ p ∈ ps, p.1 ≠ n) →
    writeList (.cons n v st) ps = .cons n v (writeList st ps)
  | [], _, _, _, _ => rfl
  | (n1, v1) :: ps, n, v, st, h => by
    have hne : n1 ≠ n := h (n1, v1) (List.mem_cons_self _ _)
    simp only [writeList]
    rw [setField_cons_ne n n1 v v1 st (Ne.symm hne)]
    exact writeList_cons_ne ps n v (setField st n1 v1)
      (fun p hp => h p (List.mem_cons_of_mem _ hp))

theorem writeList_total : (fs : FieldDecls) → ∀ st fv,
    declNamesNodup fs = true → wtFields fs st = true → wtFields fs fv = true →
    writeList st (declPairs fs fv) = fv
  | .nil, st, fv, _, hst, hfv => by
    cases st with
    | cons n w str => simp [wtFields] at hst
    | nil =>
      cases fv with
      | cons n v vr => simp [wtFields] at hfv
      | nil => rfl
  | .cons n tg t fr, st, fv, hnd, hst, hfv => by
    cases st with
    | nil => simp [wtFields] at hst
    | cons n2 w str =>
      cases fv with
      | nil => simp [wtFields] at hfv
      | cons n3 v vr =>
        simp only [wtFields, Bool.and_eq_true, beq_iff_eq] at hst hfv
        obtain ⟨⟨hn2, hwS⟩, hrS⟩ := hst
        obtain ⟨⟨hn3, hwV⟩, hrV⟩ := hfv
        subst hn2
        subst hn3
        simp only [declNamesNodup, Bool.and_eq_true, Bool.not_eq_true'] at hnd
        obtain ⟨hmem, hnd2⟩ := hnd
        have hset : setField (FieldVals.cons n w str) n v = FieldVals.cons n v str := by
          simp [setField]
        simp only [declPairs, writeList, hset]
        rw [writeList_cons_ne (declPairs fr vr) n v str ?_]
        · rw [writeList_total fr str vr hnd2 hrS hrV]
        · intro p hp heq
          have := declPairs_name fr vr p.1 p.2 hrV (by simpa using hp)
          rw [heq] at this
          rw [this] at hmem
          cases hmem

mutual
theorem rtVal : (v : Val) → ∀ t fs st key name old,
    goodTy t = true → wtVal t v = true →
    tagLookup fs key = some name → fieldTy fs name = some t →
    getField st name = some old → wtVal t old = true →
    fillEntry fs st key (serializeVal t v) = (setField st name v, none)
  | .vint n, t, fs, st, key, name, old, hg, hwtv, htl, hft, hgf, hwto => by
    cases t <;> simp [wtVal] at hwtv
    simp only [serializeVal, fillEntry, htl, hft, hgf]
  | .vstr s, t, fs, st, key, name, old, hg, hwtv, htl, hft, hgf, hwto => by
    cases t <;> simp [wtVal] at hwtv
    simp only [serializeVal, fillEntry, htl, hft, hgf]
  | .vf64 x, t, fs, st, key, name, old, hg, hwtv, htl, hft, hgf, hwto => by
    cases t <;> simp [wtVal] at hwtv
    simp only [serializeVal, fillEntry, htl, hft, hgf]
  | .vstruct gv, t, fs, st, key, name, old, hg, hwtv, htl, hft, hgf, hwto => by
    cases t <;> simp [wtVal] at hwtv
    case tstruct gs =>
      cases old <;> simp [wtVal] at hwto
      case vstruct ov =>
        have hg2 : goodDecls gs = true := by simpa [goodTy] using hg
        have hrt := rtFields gv gs gs ov hg2 (good_resolves gs hg2) hwtv hwto
        rw [writeList_total gs ov gv (good_namesNodup gs hg2) hwto hwtv] at hrt
        simp only [serializeVal, fillEntry, htl, hft, hgf, hrt]
  | .vslice es, t, fs, st, key, name, old, hg, hwtv, htl, hft, hgf, hwto => by
    cases t <;> simp [wtVal] at hwtv
    case tslice et =>
      cases et <;> simp only [goodTy] at hg
      case tint => cases hg
      case tstr => cases hg
      case tf64 => cases hg
      case tslice et2 => cases hg
      case tstruct gs =>
        have hrt := rtElems es gs hg hwtv
        simp only [serializeVal, fillEntry, htl, hft, hgf, hrt]

theorem rtFields : (gvr : FieldVals) → ∀ fr fs st,
    goodDecls fr = true → resolvesIn fs fr →
    wtFields fr gvr = true → wtFields fs st = true →
    fillEntries fs st (serializeFields fr gvr) = (writeList st (declPairs fr gvr), none)
  | .nil, fr, fs, st, hg, hres, hwt, hwtst => by
    cases fr with
    | nil => rfl
    | cons n tg t fr2 => simp [wtFields] at hwt
  | .cons n2 v vr, fr, fs, st, hg, hres, hwt, hwtst => by
    cases fr with
    | nil => simp [wtFields] at hwt
    | cons n tg t fr2 =>
      simp only [wtFields, Bool.and_eq_true, beq_iff_eq] at hwt
      obtain ⟨⟨hn, hwv⟩, hwr⟩ := hwt
      subst hn
      simp only [goodDecls, Bool.and_eq_true, bne_iff_ne, ne_eq, Bool.not_eq_true'] at hg
      obtain ⟨⟨⟨⟨⟨hg1, hg2⟩, hg3⟩, hg4⟩, hg5⟩, hg6⟩ := hg
      obtain ⟨htl, hft, hres2⟩ := hres
      obtain ⟨old, hgf, hwto⟩ := wt_getField fs st n t hwtst hft
      have hhead := rtVal v t fs st tg n old hg5 hwv htl hft hgf hwto
      have hser : serializeFields (.cons n tg t fr2) (.cons n v vr) =
          .cons tg (serializeVal t v) (serializeFields fr2 vr) := by
        simp [serializeFields, hg1, hg2]
      rw [hser]
      simp only [fillEntries, hhead]
      rw [rtFields vr fr2 fs (setField st n v) hg6 hres2 hwr
        (wt_setField fs st n t v hwtst hft hwv)]
      rfl

theorem rtElems : (es : Vals) → ∀ gs, goodDecls gs = true →
    wtVals (.tstruct gs) es = true →
    fillSliceElems (.tstruct gs) (serializeElems gs es) = (es, none)
  | .nil, _, _, _ => rfl
  | .cons v rest, gs, hg, hwt => by
    simp only [wtVals, Bool.and_eq_true] at hwt
    obtain ⟨hwv, hwr⟩ := hwt
    cases v <;> simp [wtVal] at hwv
    case vstruct gv =>
      have h1 := rtFields gv gs gs (zeroFields gs) hg (good_resolves gs hg) hwv (zeroFields_wt gs)
      rw [writeList_total gs (zeroFields gs) gv (good_namesNodup gs hg) (zeroFields_wt gs) hwv] at h1
      have h2 := rtElems rest gs hg hwr
      simp only [serializeElems, fillSliceElems, h1, h2]
end


theorem fillEntry_eq_newVal (fs : FieldDecls) (st : FieldVals) (key : String) (sv : SVal)
    (name : String) (ft : Ty) (old : Val)
    (htl : tagLookup fs key = some name) (hft : fieldTy fs name = some ft)
    (hgf : getField st name = some old) (hwto : wtVal ft old = true)
    (hc : compat ft sv = true) :
    fillEntry fs st key sv = (setField st name (newVal ft old sv), none) := by
  cases sv with
  | sint n =>
    cases ft <;> simp [compat] at hc
    simp only [fillEntry, htl, hft, hgf, newVal]
  | sstr s =>
    cases ft <;> simp [compat] at hc
    simp only [fillEntry, htl, hft, hgf, newVal]
  | sf64 x =>
    cases ft <;> simp [compat] at hc
    simp only [fillEntry, htl, hft, hgf, newVal]
  | sf32 x =>
    cases ft <;> simp [compat] at hc
    simp only [fillEntry, htl, hft, hgf, newVal]
  | sbool b => cases ft <;> simp [compat] at hc
  | smapOther => cases ft <;> simp [compat] at hc
  | smap m1 =>
    cases ft <;> simp [compat] at hc
    case tstruct gs =>
      cases old <;> simp [wtVal] at hwto
      case vstruct ov =>
        obtain ⟨hr2, _⟩ := fillEntries_ok m1 gs ov hwto hc
        simp only [fillEntry, htl, hft, hgf, newVal, fillValue, hr2]
  | sliceMaps ms =>
    cases ft <;> simp [compat] at hc
    case tslice et =>
      obtain ⟨hr2, _⟩ := fillSliceElems_ok ms et hc
      simp only [fillEntry, htl, hft, hgf, newVal, elemTyOf, hr2]
  | sliceOther l =>
    cases ft <;> simp [compat] at hc
    case tslice et =>
      have hl : l = 0 := by simpa using hc
      subst hl
      simp [fillEntry, htl, hft, hgf, newVal]

theorem not_targets : (m : SEntries) → ∀ fs k nm,
    declNamesNodup fs = true → tagLookup fs k = some nm → keyMem m k = false →
    targetsName fs m nm = false
  | .nil, _, _, _, _, _, _ => rfl
  | .cons k2 sv r, fs, k, nm, hnd, htl, hk => by
    simp only [keyMem, keyLookup] at hk
    by_cases hk2 : k2 = k
    · rw [if_pos hk2] at hk
      simp at hk
    · rw [if_neg hk2] at hk
      simp only [targetsName, Bool.or_eq_false_iff]
      constructor
      · cases htl2 : tagLookup fs k2 with
        | none => simp
        | some nm2 =>
          by_cases hnm : nm2 = nm
          · exact absurd (tagLookup_inj fs k2 k nm hnd (hnm ▸ htl2) htl) hk2
          · simp [hnm]
      · exact not_targets r fs k nm hnd htl hk

theorem fillEntries_vals : (m : SEntries) → ∀ fs fv,
    wtFields fs fv = true → compatEntries fs m = true →
    sKeysNodup m = true → declNamesNodup fs = true →
    ∀ k sv nm, keyLookup m k = some sv → tagLookup fs k = some nm →
    ∃ ft old, fieldTy fs nm = some ft ∧ getField fv nm = some old ∧
      getField (fillEntries fs fv m).1 nm = some (newVal ft old sv)
  | .nil, fs, fv, _, _, _, _, k, sv, nm, hkl, _ => by simp [keyLookup] at hkl
  | .cons key sv0 rest, fs, fv, hwt, hc, hnd, hnnd, k, sv, nm, hkl, htl => by
    simp only [compatEntries, Bool.and_eq_true] at hc
    obtain ⟨hc1, hc2⟩ := hc
    simp only [sKeysNodup, Bool.and_eq_true, Bool.not_eq_true'] at hnd
    obtain ⟨hkm, hnd2⟩ := hnd
    by_cases hkey : key = k
    · subst hkey
      simp only [keyLookup, if_true, reduceIte, Option.some.injEq] at hkl
      subst hkl
      obtain ⟨ft, hft, hcc⟩ := entryCompat_some fs key sv0 nm htl hc1
      obtain ⟨old, hgf, hwto⟩ := wt_getField fs fv nm ft hwt hft
      have hhead := fillEntry_eq_newVal fs fv key sv0 nm ft old htl hft hgf hwto hcc
      refine ⟨ft, old, hft, hgf, ?_⟩
      simp only [fillEntries, hhead]
      rw [fillEntries_frame rest fs (setField fv nm (newVal ft old sv0)) nm
        (not_targets rest fs key nm hnnd htl hkm)]
      exact getField_setField_eq fv nm _ (by simp [hgf])
    · have hkl2 : keyLookup rest k = some sv := by
        simpa [keyLookup, hkey] using hkl
      obtain ⟨he, hw1⟩ := fillEntry_ok sv0 fs fv key hwt hc1
      have hu : getField (fillEntry fs fv key sv0).1 nm = getField fv nm := by
        apply fillEntry_untouched
        intro n2 htl2 heq
        exact hkey (tagLookup_inj fs key k nm hnnd (heq ▸ htl2) htl)
      rcases hfe : fillEntry fs fv key sv0 with ⟨fv1, e⟩
      rw [hfe] at he hw1 hu
      simp only at he
      subst he
      simp only [fillEntries, hfe]
      obtain ⟨ft, old, hft, hgf1, hres⟩ :=
        fillEntries_vals rest fs fv1 hw1 hc2 hnd2 hnnd k sv nm hkl2 htl
      refine ⟨ft, old, hft, ?_, hres⟩
      rw [← hu]
      exact hgf1

theorem fillEntries_append_first_error : (m1 : SEntries) → ∀ fs fv fv1 fv2 k sv rest e,
    fillEntries fs fv m1 = (fv1, none) →
    fillEntry fs fv1 k sv = (fv2, some e) →
    fillEntries fs fv (m1.append (.cons k sv rest)) = (fv2, some e)
  | .nil, fs, fv, fv1, fv2, k, sv, rest, e, h1, h2 => by
    have h1a : fv = fv1 := by
      have := congrArg Prod.fst h1
      simpa [fillEntries] using this
    subst h1a
    simp only [SEntries.append, fillEntries, h2]
  | .cons k0 sv0 r0, fs, fv, fv1, fv2, k, sv, rest, e, h1, h2 => by
    rcases hfe : fillEntry fs fv k0 sv0 with ⟨fva, ea⟩
    cases ea with
    | some e0 =>
      simp only [fillEntries, hfe] at h1
      cases h1
    | none =>
      simp only [fillEntries, hfe] at h1
      simp only [SEntries.append, fillEntries, hfe]
      exact fillEntries_append_first_error r0 fs fva fv1 fv2 k sv rest e h1 h2

theorem fillSliceElems_len : (ms : SMaps) → ∀ et,
    (fillSliceElems et ms).2 = none →
    valsLen (fillSliceElems et ms).1 = smapsLen ms
  | .nil, _, _ => rfl
  | .cons m rest, et, h => by
    cases et with
    | tint => simp [fillSliceElems] at h
    | tstr => simp [fillSliceElems] at h
    | tf64 => simp [fillSliceElems] at h
    | tslice e2 => simp [fillSliceElems] at h
    | tstruct gs =>
      cases hr1 : (fillEntries gs (zeroFields gs) m).2 with
      | some e =>
        simp only [fillSliceElems, hr1] at h
        cases h
      | none =>
        simp only [fillSliceElems, hr1] at h ⊢
        simp only [valsLen, smapsLen]
        rw [fillSliceElems_len rest (.tstruct gs) h]

theorem fillSliceElems_get : (ms : SMaps) → ∀ et i mi,
    (fillSliceElems et ms).2 = none → smapsGet ms i = some mi →
    valsGet (fillSliceElems et ms).1 i = some (fillValue et (zeroVal et) mi).1 ∧
    (fillValue et (zeroVal et) mi).2 = none
  | .nil, _, i, _, _, hg => by simp [smapsGet] at hg
  | .cons m rest, et, i, mi, h, hg => by
    cases et with
    | tint => simp [fillSliceElems] at h
    | tstr => simp [fillSliceElems] at h
    | tf64 => simp [fillSliceElems] at h
    | tslice e2 => simp [fillSliceElems] at h
    | tstruct gs =>
      cases hr1 : (fillEntries gs (zeroFields gs) m).2 with
      | some e =>
        simp only [fillSliceElems, hr1] at h
        cases h
      | none =>
        simp only [fillSliceElems, hr1] at h
        cases i with
        | zero =>
          simp only [smapsGet, Option.some.injEq] at hg
          subst hg
          constructor
          · simp [fillSliceElems, hr1, valsGet, fillValue, zeroVal]
          · simp [fillValue, zeroVal, hr1]
        | succ j =>
          simp only [smapsGet] at hg
          have := fillSliceElems_get rest (.tstruct gs) j mi h hg
          simpa [fillSliceElems, hr1, valsGet] using this


/-- C1 (amended): for every struct target type, well-typed instance passed
by pointer, and field map whose keys are all declared tags, are pairwise
distinct, and whose every value is bindable (kind-compatible, recursively)
against its located field, `Doc.fillFields` succeeds and sets exactly the
fields named by the keys of the map — each matched field ends up holding
the value the binder produces for that entry (`newVal`, in particular the
scalar itself for a scalar source) — while every field whose tag is not a
key of the map keeps its prior value, and no fields are added or removed
(the slot names are unchanged).  The unamended claim, which omits the
bindability hypothesis, is refuted by `c1_counterexample`. -/
theorem c1_frame_exact (fs : FieldDecls) (fv : FieldVals) (m : SEntries)
    (hwt : wtFields fs fv = true) (hkeys : allKeysDeclared fs m = true)
    (hcompat : compatEntries fs m = true) (hknd : sKeysNodup m = true)
    (hnnd : declNamesNodup fs = true) :
    ∃ fv2,
      fillFields (.ptr (.tstruct fs) (.vstruct fv)) m
        = (.ptr (.tstruct fs) (.vstruct fv2), none) ∧
      fieldNames fv2 = fieldNames fv ∧
      (∀ nm, targetsName fs m nm = false → getField fv2 nm = getField fv nm) ∧
      (∀ k sv nm, keyLookup m k = some sv → tagLookup fs k = some nm →
        ∃ ft old, fieldTy fs nm = some ft ∧ getField fv nm = some old ∧
          getField fv2 nm = some (newVal ft old sv)) := by
  obtain ⟨h2, _⟩ := fillEntries_ok m fs fv hwt hcompat
  refine ⟨(fillEntries fs fv m).1, ?_, fillEntries_names m fs fv,
    fun nm h => fillEntries_frame m fs fv nm h,
    fun k sv nm hkl htl => fillEntries_vals m fs fv hwt hcompat hknd hnnd k sv nm hkl htl⟩
  simp only [fillFields, fillValue, h2]

/-- C1 witness: binding a compatible singleton map on a concrete two-field
target succeeds. -/
theorem c1_frame_exact_witness :
    (fillFields (.ptr (.tstruct exAB) (.vstruct exABVal)) (.cons "a" (.sint 5) .nil)).2
      = none := by
  obtain ⟨fv2, h1, _⟩ :=
    c1_frame_exact exAB exABVal (.cons "a" (.sint 5) .nil) rfl rfl rfl rfl rfl
  rw [h1]

/-- C1 counterexample: a field map whose keys are all declared tags on
which `Doc.fillFields` does not succeed (a string value for an int field
panics), refuting the claim as stated. -/
theorem c1_counterexample :
    allKeysDeclared exA (.cons "a" (.sstr "text") .nil) = true ∧
    (fillFields (.ptr (.tstruct exA) (.vstruct exAVal)) (.cons "a" (.sstr "text") .nil)).2
      ≠ none :=
  ⟨rfl, by decide⟩

/-- C2: round-trip — for every type built only from integer, string, float,
nested-structural and sequence-of-structural fields (each field carrying a
non-sentinel tag unique within its structural level, and names unique),
binding the field map serialized from a well-typed value `fv` onto a fresh
zero instance succeeds and reproduces `fv` field-wise, at any nesting
depth. -/
theorem c2_round_trip (fs : FieldDecls) (fv : FieldVals)
    (hg : goodDecls fs = true) (hwt : wtFields fs fv = true) :
    fillFields (.ptr (.tstruct fs) (zeroVal (.tstruct fs))) (serializeFields fs fv)
      = (.ptr (.tstruct fs) (.vstruct fv), none) := by
  have h := rtFields fv fs fs (zeroFields fs) hg (good_resolves fs hg) hwt (zeroFields_wt fs)
  rw [writeList_total fs (zeroFields fs) fv (good_namesNodup fs hg) (zeroFields_wt fs) hwt] at h
  simp only [fillFields, zeroVal, fillValue, h]

/-- C2 witness: the round trip on a concrete value spanning three
structural levels plus a sequence-of-structural field. -/
theorem c2_round_trip_witness :
    fillFields (.ptr (.tstruct exTop) (zeroVal (.tstruct exTop))) (serializeFields exTop exTopVal)
      = (.ptr (.tstruct exTop) (.vstruct exTopVal), none) :=
  c2_round_trip exTop exTopVal rfl rfl

/-- C3: binding a field map whose value for a sequence-of-structural field
is a non-empty slice of any dynamic type other than a slice of mappings
fails with the failed sequence type assertion (ShapeMismatch) and leaves
the target — in particular that field — completely unchanged. -/
theorem c3_seq_nonmapping_rejected (fs : FieldDecls) (fv : FieldVals)
    (tg name : String) (gs : FieldDecls) (l : Nat) (old : Val)
    (htl : tagLookup fs tg = some name)
    (hft : fieldTy fs name = some (.tslice (.tstruct gs)))
    (hgf : getField fv name = some old) :
    fillEntry fs fv tg (.sliceOther (l + 1)) = (fv, some .castSliceFailed) ∧
    fillFields (.ptr (.tstruct fs) (.vstruct fv)) (.cons tg (.sliceOther (l + 1)) .nil)
      = (.ptr (.tstruct fs) (.vstruct fv), some .castSliceFailed) ∧
    Failure.isShapeMismatch .castSliceFailed = true := by
  have h1 : fillEntry fs fv tg (.sliceOther (l + 1)) = (fv, some .castSliceFailed) := by
    simp [fillEntry, htl, hft, hgf]
  refine ⟨h1, ?_, rfl⟩
  simp only [fillFields, fillValue, fillEntries, h1]

/-- C3 witness: a length-3 non-mapping sequence against the concrete
`items` target. -/
theorem c3_seq_nonmapping_rejected_witness :
    fillFields (.ptr (.tstruct exItems) (.vstruct exItemsVal))
        (.cons "items" (.sliceOther 3) .nil)
      = (.ptr (.tstruct exItems) (.vstruct exItemsVal), some .castSliceFailed) :=
  (c3_seq_nonmapping_rejected exItems exItemsVal "items" "Items" exInner 2
    (.vslice (.cons (.vstruct (.cons "S" (.vstr "old") .nil)) .nil)) rfl rfl rfl).2.1

/-- C4 (amended): binding a field map with a string value for a declared
integer field does not return the UnsupportedType error — it panics inside
`reflect.Value.SetString` (the switch in `Doc._fillFields` dispatches on
the source kind only and calls the setter for that kind on the located
field unconditionally); at the point of the panic the field still holds
its prior value (the target state is unchanged).  The unamended claim is
refuted by `c4_counterexample`. -/
theorem c4_scalar_kind_panic (fs : FieldDecls) (fv : FieldVals)
    (tg name : String) (old : Val) (s : String)
    (htl : tagLookup fs tg = some name) (hft : fieldTy fs name = some .tint)
    (hgf : getField fv name = some old) :
    fillFields (.ptr (.tstruct fs) (.vstruct fv)) (.cons tg (.sstr s) .nil)
      = (.ptr (.tstruct fs) (.vstruct fv),
         some (.goPanic "reflect: call of reflect.Value.SetString on wrong kind")) := by
  have h1 : fillEntry fs fv tg (.sstr s)
      = (fv, some (.goPanic "reflect: call of reflect.Value.SetString on wrong kind")) := by
    simp only [fillEntry, htl, hft, hgf]
  simp only [fillFields, fillValue, fillEntries, h1]

/-- C4 witness: the concrete one-int-field target. -/
theorem c4_scalar_kind_panic_witness :
    fillFields (.ptr (.tstruct exA) (.vstruct exAVal)) (.cons "a" (.sstr "text") .nil)
      = (.ptr (.tstruct exA) (.vstruct exAVal),
         some (.goPanic "reflect: call of reflect.Value.SetString on wrong kind")) :=
  c4_scalar_kind_panic exA exAVal "a" "A" (.vint 7) "text" rfl rfl rfl

/-- C4 counterexample: the failure produced for a string value on the int
field `a` is a reflect panic, not the UnsupportedType error the claim
names; the field keeps its prior value. -/
theorem c4_counterexample :
    (fillFields (.ptr (.tstruct exA) (.vstruct exAVal)) (.cons "a" (.sstr "text") .nil)).2
      = some (.goPanic "reflect: call of reflect.Value.SetString on wrong kind") ∧
    Failure.goPanic "reflect: call of reflect.Value.SetString on wrong kind"
      ≠ Failure.unsupportedType ∧
    (fillFields (.ptr (.tstruct exA) (.vstruct exAVal)) (.cons "a" (.sstr "text") .nil)).1
      = .ptr (.tstruct exA) (.vstruct exAVal) :=
  ⟨rfl, by decide, rfl⟩

/-- C5: a key whose tag is not declared on the target is skipped: the loop
iteration is a no-op, so binding the map equals binding the map without
that entry; in particular a singleton unknown-tag map succeeds and leaves
the target unchanged, and an unmatched tag is never surfaced as an
error. -/
theorem c5_unknown_tag_skipped (fs : FieldDecls) (fv : FieldVals)
    (key : String) (sv : SVal) (rest : SEntries)
    (h : tagLookup fs key = none) :
    fillEntry fs fv key sv = (fv, none) ∧
    fillEntries fs fv (.cons key sv rest) = fillEntries fs fv rest ∧
    fillFields (.ptr (.tstruct fs) (.vstruct fv)) (.cons key sv .nil)
      = (.ptr (.tstruct fs) (.vstruct fv), none) := by
  have h1 := fillEntry_skip fs fv key sv h
  refine ⟨h1, ?_, ?_⟩
  · simp only [fillEntries, h1]
  · simp only [fillFields, fillValue, fillEntries, h1]

/-- C5 witness: the unknown tag on the concrete two-field target. -/
theorem c5_unknown_tag_skipped_witness :
    fillFields (.ptr (.tstruct exAB) (.vstruct exABVal)) (.cons "unknown" (.sint 1) .nil)
      = (.ptr (.tstruct exAB) (.vstruct exABVal), none) :=
  (c5_unknown_tag_skipped exAB exABVal "unknown" (.sint 1) .nil rfl).2.2

/-- C6: when a prefix of the field map binds without error producing state
`fv1` and the next entry fails with `e`, the whole bind returns exactly
that first error with the state produced so far (every field assigned
before the failing key retains its newly assigned value), and the entries
after the failing one are never processed (the result does not depend on
them). -/
theorem c6_first_error_aborts (fs : FieldDecls) (fv : FieldVals) (m1 : SEntries)
    (k : String) (sv : SVal) (rest : SEntries) (fv1 fv2 : FieldVals) (e : Failure)
    (h1 : fillEntries fs fv m1 = (fv1, none))
    (h2 : fillEntry fs fv1 k sv = (fv2, some e)) :
    fillEntries fs fv (m1.append (.cons k sv rest)) = (fv2, some e) ∧
    fillFields (.ptr (.tstruct fs) (.vstruct fv)) (m1.append (.cons k sv rest))
      = (.ptr (.tstruct fs) (.vstruct fv2), some e) := by
  have hmain := fillEntries_append_first_error m1 fs fv fv1 fv2 k sv rest e h1 h2
  exact ⟨hmain, by simp only [fillFields, fillValue, hmain]⟩

/-- C6 witness: the map assigns `a`, then fails on an unsupported bool for
`b`, then would assign `a` again; the result keeps the first assignment,
reports the first error, and ignores the trailing entry. -/
theorem c6_first_error_aborts_witness :
    fillFields (.ptr (.tstruct exAB) (.vstruct exABVal))
        ((SEntries.cons "a" (.sint 5) .nil).append
          (.cons "b" (.sbool true) (.cons "a" (.sint 9) .nil)))
      = (.ptr (.tstruct exAB) (.vstruct (.cons "A" (.vint 5) (.cons "B" (.vstr "x") .nil))),
         some .unsupportedType) :=
  (c6_first_error_aborts exAB exABVal (.cons "a" (.sint 5) .nil)
    "b" (.sbool true) (.cons "a" (.sint 9) .nil)
    (.cons "A" (.vint 5) (.cons "B" (.vstr "x") .nil))
    (.cons "A" (.vint 5) (.cons "B" (.vstr "x") .nil))
    .unsupportedType rfl rfl).2

/-- C7: for a field declared as a slice and a source sequence of mappings,
the binder builds a fresh container element by element — when every
element binds, the container has the length of the source sequence, its
element at each index is the result of recursively binding a fresh zero
element against the mapping at that index, and only then is it assigned
into the field as a single replace; if binding any element fails, the
error is returned and the field keeps its prior container (the state is
exactly the incoming one). -/
theorem c7_seq_alloc_bind_replace (fs : FieldDecls) (fv : FieldVals)
    (tg name : String) (et : Ty) (ms : SMaps) (old : Val)
    (htl : tagLookup fs tg = some name)
    (hft : fieldTy fs name = some (.tslice et))
    (hgf : getField fv name = some old) :
    ((fillSliceElems et ms).2 = none →
      fillEntry fs fv tg (.sliceMaps ms)
        = (setField fv name (.vslice (fillSliceElems et ms).1), none) ∧
      valsLen (fillSliceElems et ms).1 = smapsLen ms ∧
      (∀ i mi, smapsGet ms i = some mi →
        valsGet (fillSliceElems et ms).1 i = some (fillValue et (zeroVal et) mi).1 ∧
        (fillValue et (zeroVal et) mi).2 = none)) ∧
    (∀ e, (fillSliceElems et ms).2 = some e →
      fillEntry fs fv tg (.sliceMaps ms) = (fv, some e)) := by
  constructor
  · intro h
    refine ⟨?_, fillSliceElems_len ms et h, fun i mi hg => fillSliceElems_get ms et i mi h hg⟩
    simp only [fillEntry, htl, hft, hgf, h]
  · intro e h
    simp only [fillEntry, htl, hft, hgf, h]

/-- C7 witness: a two-mapping sequence replaces the pre-existing
one-element container with a freshly bound two-element container. -/
theorem c7_seq_alloc_bind_replace_witness :
    fillEntry exItems exItemsVal "items"
        (.sliceMaps (.cons (.cons "s" (.sstr "n1") .nil)
          (.cons (.cons "s" (.sstr "n2") .nil) .nil)))
      = (.cons "Items" (.vslice (.cons (.vstruct (.cons "S" (.vstr "n1") .nil))
          (.cons (.vstruct (.cons "S" (.vstr "n2") .nil)) .nil))) .nil, none) := by
  have h := (c7_seq_alloc_bind_replace exItems exItemsVal "items" "Items" (.tstruct exInner)
    (.cons (.cons "s" (.sstr "n1") .nil) (.cons (.cons "s" (.sstr "n2") .nil) .nil))
    (.vslice (.cons (.vstruct (.cons "S" (.vstr "old") .nil)) .nil)) rfl rfl rfl).1 rfl
  exact h.1

/-- C8: a target whose dynamic kind is not a pointer is rejected by
`Doc.fillFields` with the error `res is not a pointer` (InvalidTarget) for
every field map, and the target is left unchanged. -/
theorem c8_non_pointer_rejected (t : Ty) (v : Val) (m : SEntries) :
    fillFields (.nonPtr t v) m = (.nonPtr t v, some .notAPointer) := rfl

/-- C9 (amended): a pointer target that dereferences to a non-struct value
does not make `Doc._fillFields` return ShapeMismatch — `vt.NumField()`
panics, for every field map including the empty one, before any entry is
processed.  The unamended claim is refuted by `c9_counterexample`. -/
theorem c9_non_struct_panics (t : Ty) (v : Val) (m : SEntries)
    (h : t.isStructTy = false) :
    fillFields (.ptr t v) m
      = (.ptr t v, some (.goPanic "reflect: NumField of non-struct type")) := by
  cases t <;> first | (cases v <;> rfl) | (simp [Ty.isStructTy] at h)

/-- C9 witness: a pointer to an int with the empty field map. -/
theorem c9_non_struct_panics_witness :
    fillFields (.ptr .tint (.vint 3)) .nil
      = (.ptr .tint (.vint 3), some (.goPanic "reflect: NumField of non-struct type")) :=
  c9_non_struct_panics .tint (.vint 3) .nil rfl

/-- C9 counterexample: for a pointer to an int and the empty field map the
outcome is a reflect panic, which is not in the ShapeMismatch error
bucket, refuting the claim that ShapeMismatch is returned (and that the
code never panics). -/
theorem c9_counterexample :
    (fillFields (.ptr .tint (.vint 0)) .nil).2
      = some (.goPanic "reflect: NumField of non-struct type") ∧
    Failure.isShapeMismatch (.goPanic "reflect: NumField of non-struct type") = false :=
  ⟨rfl, rfl⟩

/-- C10: for a field declared as a slice, a source sequence of length zero
succeeds regardless of its dynamic element type — the per-element sequence
type assertion is never reached — and the field is replaced with a fresh
empty container: both an empty slice of a non-mapping dynamic type and an
empty slice of mappings bind to an empty container with no error. -/
theorem c10_empty_seq_accepted (fs : FieldDecls) (fv : FieldVals)
    (tg name : String) (et : Ty) (old : Val)
    (htl : tagLookup fs tg = some name)
    (hft : fieldTy fs name = some (.tslice et))
    (hgf : getField fv name = some old) :
    fillEntry fs fv tg (.sliceOther 0) = (setField fv name (.vslice .nil), none) ∧
    fillEntry fs fv tg (.sliceMaps .nil) = (setField fv name (.vslice .nil), none) := by
  constructor
  · simp [fillEntry, htl, hft, hgf]
  · simp only [fillEntry, htl, hft, hgf, fillSliceElems]

/-- C10 witness: an empty non-mapping sequence replaces the pre-existing
one-element container of the concrete `items` target with an empty one. -/
theorem c10_empty_seq_accepted_witness :
    fillEntry exItems exItemsVal "items" (.sliceOther 0)
      = (.cons "Items" (.vslice .nil) .nil, none) :=
  (c10_empty_seq_accepted exItems exItemsVal "items" "Items" (.tstruct exInner)
    (.vslice (.cons (.vstruct (.cons "S" (.vstr "old") .nil)) .nil)) rfl rfl rfl).1

end Eso
